import Mathlib

/-!
# Verification of `efficientdet/anchors.py`

Shallow embedding of the anchor module of this repository: anchor-grid
generation, box decoding, greedy per-class NMS, the detection post-processor,
and the anchor labeler.

Conventions of the embedding:
* real-number arithmetic is carried out over `ℚ`;
* the transcendental functions of the source (`np.exp`, and the `ln` of the
  box-coder's encode direction) are passed as explicit function parameters
  `exp, ln : ℚ → ℚ`; each theorem assumes only the properties of them that
  its statement needs (for instance `∀ q, 0 < q → exp (ln q) = q`);
* `numpy` arrays become `List`s; `a[i]` becomes `List.getD i` with an
  all-zeros default (the source never indexes out of range);
* `np.argsort` (an unstable quicksort in `numpy`; stable in practice on the
  small, mostly tied-free inputs of this module) is modelled as the stable
  ascending sort, i.e. sorting the indices by the lexicographic order
  (score, index);
* the matcher/target-assigner modules imported from `object_detection/…` are
  not part of the sources; they are modelled from the spec and marked so.
-/

-- `Rat.add`/`mul`/`sub`/`inv` are `@[irreducible]` upstream; make them
-- reducible in this file so that concrete instances evaluate with `decide`.
attribute [local semireducible] Rat.add Rat.mul Rat.sub Rat.inv

/-- A box in `(ymin, xmin, ymax, xmax)` order: the layout of the rows of the
anchor array and of the result of `decode_box_outputs` (lines 66-80). -/
structure Box where
  ymin : ℚ
  xmin : ℚ
  ymax : ℚ
  xmax : ℚ
deriving DecidableEq

def box0 : Box := ⟨0, 0, 0, 0⟩

/-- A row of the `dets` argument of `nms`: `(x1, y1, x2, y2, score)`
(source lines 85-89). -/
structure Det where
  x1 : ℚ
  y1 : ℚ
  x2 : ℚ
  y2 : ℚ
  score : ℚ
deriving DecidableEq

def det0 : Det := ⟨0, 0, 0, 0, 0⟩

/-- Source: `areas = (x2 - x1 + 1) * (y2 - y1 + 1)` (line 91): the `+1`
pixel-inclusive area convention. -/
def area (d : Det) : ℚ := (d.x2 - d.x1 + 1) * (d.y2 - d.y1 + 1)

/-- Source: `intersection = w * h` with the clamped widths/heights of lines 98-105
(again with the `+1` convention). -/
def inter (a b : Det) : ℚ :=
  max 0 (min a.x2 b.x2 - max a.x1 b.x1 + 1) *
    max 0 (min a.y2 b.y2 - max a.y1 b.y1 + 1)

/-- Source: `overlap = intersection / (areas[i] + areas[j] - intersection)`
(line 106); `ℚ` division by zero yields 0. -/
def iou (a b : Det) : ℚ := inter a b / (area a + area b - inter a b)

/-- Ascending comparison of scores with ties broken by ascending index.  A
stable ascending argsort returns exactly the indices sorted by this
relation; it is the model of `scores.argsort()` (line 92). -/
def argsortLe (s : ℕ → ℚ) (i j : ℕ) : Prop :=
  s i < s j ∨ (s i = s j ∧ i ≤ j)

instance (s : ℕ → ℚ) : DecidableRel (argsortLe s) := fun i j => by
  unfold argsortLe; infer_instance

/-- The score of row `k` of `dets` (`dets[:, 4]`, line 89). -/
def scoreAt (dets : List Det) (k : ℕ) : ℚ := (dets.getD k det0).score

/-- Source: `order = scores.argsort()[::-1]` (line 92): stable ascending argsort,
then reversal. -/
def nmsOrder (dets : List Det) : List ℕ :=
  (List.insertionSort (argsortLe (scoreAt dets)) (List.range dets.length)).reverse

/-- The `while order.size > 0` loop of lines 95-109: keep the first index of
`order`, drop every later index whose IoU with it exceeds `thresh`
(line 108 keeps exactly the indices with `overlap <= thresh`).  The loop is
written with a fuel parameter to make the recursion structural; each
iteration strictly shrinks the list, so fuel `order.length` is always
enough and the `0, _ :: _` branch is never reached. -/
def nmsLoop (dets : List Det) (thresh : ℚ) : ℕ → List ℕ → List ℕ
  | _, [] => []
  | 0, _ :: _ => []
  | fuel + 1, i :: rest =>
    i :: nmsLoop dets thresh fuel
      (rest.filter fun j => iou (dets.getD i det0) (dets.getD j det0) ≤ thresh)

/-- Source: `nms(dets, thresh)` (lines 83-110). -/
def nms (dets : List Det) (thresh : ℚ) : List ℕ :=
  nmsLoop dets thresh (nmsOrder dets).length (nmsOrder dets)

/-- Descending comparison of scores with ties broken by ORIGINAL input order
(earlier index first): the order a stable descending sort by score would
produce.  This definition follows the spec's words (spec 4.5.1), for
comparison with the source's `nms`. -/
def specDescLe (s : ℕ → ℚ) (i j : ℕ) : Prop :=
  s j < s i ∨ (s i = s j ∧ i ≤ j)

instance (s : ℕ → ℚ) : DecidableRel (specDescLe s) := fun i j => by
  unfold specDescLe; infer_instance

/-- Greedy NMS over a stable descending sort by score, ties kept in original
input order.  This definition follows the spec's words (spec 4.5.1), for
comparison with the source's `nms`. -/
def specNms (dets : List Det) (thresh : ℚ) : List ℕ :=
  nmsLoop dets thresh dets.length
    (List.insertionSort (specDescLe (scoreAt dets)) (List.range dets.length))

/-- Descending comparison of scores with ties broken by REVERSE input order
(later index first). -/
def descLe (s : ℕ → ℚ) (i j : ℕ) : Prop :=
  s j < s i ∨ (s j = s i ∧ j ≤ i)

instance (s : ℕ → ℚ) : DecidableRel (descLe s) := fun i j => by
  unfold descLe; infer_instance

lemma argsortLe_total (s : ℕ → ℚ) : ∀ i j, argsortLe s i j ∨ argsortLe s j i := by
  intro i j
  rcases lt_trichotomy (s i) (s j) with h | h | h
  · exact Or.inl (Or.inl h)
  · rcases le_total i j with hij | hij
    · exact Or.inl (Or.inr ⟨h, hij⟩)
    · exact Or.inr (Or.inr ⟨h.symm, hij⟩)
  · exact Or.inr (Or.inl h)

lemma argsortLe_trans (s : ℕ → ℚ) :
    ∀ i j k, argsortLe s i j → argsortLe s j k → argsortLe s i k := by
  intro i j k hij hjk
  rcases hij with h | ⟨he, hi⟩ <;> rcases hjk with h' | ⟨he', hi'⟩
  · exact Or.inl (h.trans h')
  · exact Or.inl (he' ▸ h)
  · exact Or.inl (by rw [he]; exact h')
  · exact Or.inr ⟨he.trans he', hi.trans hi'⟩

lemma argsortLe_antisymm (s : ℕ → ℚ) :
    ∀ i j, argsortLe s i j → argsortLe s j i → i = j := by
  intro i j hij hji
  rcases hij with h | ⟨he, hi⟩ <;> rcases hji with h' | ⟨he', hi'⟩
  · exact absurd h' (lt_asymm h)
  · exact absurd (he' ▸ h) (lt_irrefl _)
  · exact absurd (he ▸ h') (lt_irrefl _)
  · exact le_antisymm hi hi'

instance (s : ℕ → ℚ) : IsTotal ℕ (argsortLe s) := ⟨argsortLe_total s⟩

instance (s : ℕ → ℚ) : IsTrans ℕ (argsortLe s) := ⟨argsortLe_trans s⟩

instance (s : ℕ → ℚ) : IsAntisymm ℕ (argsortLe s) := ⟨argsortLe_antisymm s⟩

/-- The relation `descLe s` is exactly `argsortLe s` with its arguments swapped. -/
lemma descLe_swap (s : ℕ → ℚ) (i j : ℕ) : descLe s i j ↔ argsortLe s j i := Iff.rfl

instance (s : ℕ → ℚ) : IsTotal ℕ (descLe s) :=
  ⟨fun i j => ((argsortLe_total s) j i).imp id id⟩

instance (s : ℕ → ℚ) : IsTrans ℕ (descLe s) :=
  ⟨fun i j k hij hjk => argsortLe_trans s k j i hjk hij⟩

instance (s : ℕ → ℚ) : IsAntisymm ℕ (descLe s) :=
  ⟨fun i j hij hji => (argsortLe_antisymm s j i hij hji).symm⟩

/-- The list `nmsOrder` (the reverse of a stable ascending argsort) is the same list
as a sort by descending score whose ties are broken by the LARGER index
first. -/
lemma nmsOrder_eq_descSort (dets : List Det) :
    nmsOrder dets =
      List.insertionSort (descLe (scoreAt dets)) (List.range dets.length) := by
  apply List.eq_of_perm_of_sorted (r := descLe (scoreAt dets))
  · exact ((List.reverse_perm _).trans (List.perm_insertionSort _ _)).trans
      (List.perm_insertionSort _ _).symm
  · unfold nmsOrder
    rw [List.Sorted, List.pairwise_reverse]
    have h := List.sorted_insertionSort (argsortLe (scoreAt dets)) (List.range dets.length)
    exact h
  · exact List.sorted_insertionSort _ _

/-- The list `nmsOrder dets` is a permutation of `range dets.length`. -/
lemma nmsOrder_perm (dets : List Det) :
    (nmsOrder dets).Perm (List.range dets.length) :=
  (List.reverse_perm _).trans (List.perm_insertionSort _ _)

/-- Everything `nmsLoop` keeps comes from the order list it was given. -/
lemma nmsLoop_subset (dets : List Det) (t : ℚ) :
    ∀ (fuel : ℕ) (order : List ℕ), nmsLoop dets t fuel order ⊆ order := by
  intro fuel
  induction fuel with
  | zero => intro order; cases order <;> simp [nmsLoop]
  | succ n ih =>
    intro order
    cases order with
    | nil => simp [nmsLoop]
    | cons i rest =>
      simp only [nmsLoop]
      exact List.cons_subset_cons i ((ih _).trans (List.filter_subset' _))

/-- Any two indices kept by the NMS loop (in kept order) have IoU at most
the threshold: a kept index survived the filter of every earlier kept
index. -/
lemma nmsLoop_pairwise (dets : List Det) (t : ℚ) :
    ∀ (fuel : ℕ) (order : List ℕ),
      List.Pairwise (fun i j => iou (dets.getD i det0) (dets.getD j det0) ≤ t)
        (nmsLoop dets t fuel order) := by
  intro fuel
  induction fuel with
  | zero => intro order; cases order <;> simp [nmsLoop]
  | succ n ih =>
    intro order
    cases order with
    | nil => simp [nmsLoop]
    | cons i rest =>
      simp only [nmsLoop]
      refine List.Pairwise.cons ?_ (ih _)
      intro j hj
      have hj' := nmsLoop_subset dets t n _ hj
      have hp := List.of_mem_filter hj'
      exact of_decide_eq_true hp

/-- If no two distinct indices of `order` have IoU above the threshold, the
NMS loop keeps all of `order` unchanged. -/
lemma nmsLoop_eq_self (dets : List Det) (t : ℚ) :
    ∀ (fuel : ℕ) (order : List ℕ), order.length ≤ fuel → order.Nodup →
      (∀ i ∈ order, ∀ j ∈ order, i ≠ j →
        iou (dets.getD i det0) (dets.getD j det0) ≤ t) →
      nmsLoop dets t fuel order = order := by
  intro fuel
  induction fuel with
  | zero =>
    intro order hlen _ _
    cases order with
    | nil => simp [nmsLoop]
    | cons i rest => simp at hlen
  | succ n ih =>
    intro order hlen hnd hall
    cases order with
    | nil => simp [nmsLoop]
    | cons i rest =>
      obtain ⟨hnotmem, hndrest⟩ := List.nodup_cons.mp hnd
      simp only [nmsLoop]
      have hfil : (rest.filter fun j =>
          decide (iou (dets.getD i det0) (dets.getD j det0) ≤ t)) = rest := by
        apply List.filter_eq_self.mpr
        intro j hj
        exact decide_eq_true (hall i (List.mem_cons_self i rest) j
          (List.mem_cons_of_mem _ hj) (fun h => hnotmem (h ▸ hj)))
      rw [hfil, ih rest (Nat.le_of_succ_le_succ (by simpa using hlen)) hndrest
        (fun a ha b hb hne =>
          hall a (List.mem_cons_of_mem _ ha) b (List.mem_cons_of_mem _ hb) hne)]

/-- The intersection `inter` is symmetric in its two boxes. -/
lemma inter_symm (a b : Det) : inter a b = inter b a := by
  unfold inter
  rw [min_comm a.x2, max_comm a.x1, min_comm a.y2, max_comm a.y1]

/-- The overlap `iou` is symmetric in its two boxes. -/
lemma iou_symm (a b : Det) : iou a b = iou b a := by
  unfold iou
  rw [inter_symm, add_comm (area a)]

/-- C5: the claim asserts that `nms` breaks score ties by ORIGINAL input
order (earlier index first), matching a stable descending sort.  It does
not: on two identical boxes with equal scores, `nms` (whose order is an
ascending argsort REVERSED) considers and keeps index 1, while the greedy
NMS over a stable descending sort — what the claim describes — keeps
index 0. -/
theorem nms_stable_tie_counterexample :
    nms [⟨0, 0, 10, 10, 5⟩, ⟨0, 0, 10, 10, 5⟩] (1/2) = [1] ∧
      specNms [⟨0, 0, 10, 10, 5⟩, ⟨0, 0, 10, 10, 5⟩] (1/2) = [0] ∧
      ([1] : List ℕ) ≠ [0] := by
  refine ⟨by decide, by decide, by decide⟩

/-- C5 (amended): `nms` is deterministic and processes boxes in descending
score order with ties in score broken by REVERSE input order (the
later-index box of two equal-scored boxes is considered, and hence kept,
first): for every input list its kept list equals that of a greedy NMS
whose order is a sort by descending score with ties put later index
first. -/
theorem nms_eq_greedy_desc_ties_later (dets : List Det) (t : ℚ) :
    nms dets t =
      nmsLoop dets t dets.length
        (List.insertionSort (descLe (scoreAt dets)) (List.range dets.length)) := by
  unfold nms
  rw [nmsOrder_eq_descSort]
  congr 1
  rw [(List.perm_insertionSort _ _).length_eq, List.length_range]

/-- C6: NMS idempotence.  The indices kept by `nms` are pairwise
non-suppressing (IoU at most the threshold, under the `+1` pixel-inclusive
area convention), and re-running `nms` with the same threshold on the kept
rows returns every row of that subset (a permutation of all its indices). -/
theorem nms_idempotent (dets : List Det) (t : ℚ) :
    (nms (List.map (fun k => dets.getD k det0) (nms dets t)) t).Perm
        (List.range (nms dets t).length) ∧
      List.Pairwise (fun i j => iou (dets.getD i det0) (dets.getD j det0) ≤ t)
        (nms dets t) := by
  have hpw : List.Pairwise
      (fun i j => iou (dets.getD i det0) (dets.getD j det0) ≤ t) (nms dets t) :=
    nmsLoop_pairwise dets t _ _
  refine ⟨?_, hpw⟩
  set keep := nms dets t with hkeep
  set sub := List.map (fun k => dets.getD k det0) keep with hsub
  have hlen : sub.length = keep.length := List.length_map _ _
  -- the rows of `sub`, read back through `keep`
  have hget : ∀ p (hp : p < keep.length), sub.getD p det0 = dets.getD keep[p] det0 := by
    intro p hp
    rw [List.getD_eq_getElem sub det0 (by rw [hlen]; exact hp)]
    simp [hsub]
  -- all distinct pairs of `sub` have IoU ≤ t
  have hall : ∀ p q, p < keep.length → q < keep.length → p ≠ q →
      iou (sub.getD p det0) (sub.getD q det0) ≤ t := by
    intro p q hp hq hne
    have hmain : ∀ p q, p < keep.length → q < keep.length → p < q →
        iou (sub.getD p det0) (sub.getD q det0) ≤ t := by
      intro p q hp hq hlt
      rw [hget p hp, hget q hq]
      exact List.pairwise_iff_getElem.mp hpw p q hp hq hlt
    rcases Nat.lt_or_ge p q with h | h
    · exact hmain p q hp hq h
    · rw [iou_symm]
      exact hmain q p hq hp (lt_of_le_of_ne h (Ne.symm hne))
  have hnd : (nmsOrder sub).Nodup :=
    (nmsOrder_perm sub).nodup_iff.mpr (List.nodup_range _)
  have hmem : ∀ i ∈ nmsOrder sub, i < keep.length := by
    intro i hi
    have := (nmsOrder_perm sub).mem_iff.mp hi
    rw [List.mem_range, hlen] at this
    exact this
  have heq : nms sub t = nmsOrder sub := by
    unfold nms
    exact nmsLoop_eq_self sub t _ _ le_rfl hnd
      (fun i hi j hj hne => hall i j (hmem i hi) (hmem j hj) hne)
  rw [heq, ← hlen]
  exact nmsOrder_perm sub

/-- The elementwise core of `decode_box_outputs` (lines 66-80): decode one
regression 4-tuple `(ty, tx, th, tw)` against one anchor box.  `np.exp` is
the function parameter `exp`. -/
def decodeBox (exp : ℚ → ℚ) (rel : ℚ × ℚ × ℚ × ℚ) (anchor : Box) : Box :=
  let ycenter_a := (anchor.ymin + anchor.ymax) / 2
  let xcenter_a := (anchor.xmin + anchor.xmax) / 2
  let ha := anchor.ymax - anchor.ymin
  let wa := anchor.xmax - anchor.xmin
  let ty := rel.1
  let tx := rel.2.1
  let th := rel.2.2.1
  let tw := rel.2.2.2
  let w := exp tw * wa
  let h := exp th * ha
  let ycenter := ty * ha + ycenter_a
  let xcenter := tx * wa + xcenter_a
  ⟨ycenter - h / 2, xcenter - w / 2, ycenter + h / 2, xcenter + w / 2⟩

/-- Source: `decode_box_outputs(rel_codes, anchors)` (lines 52-80): the stacked
(`np.column_stack`) elementwise decode of a list of regression tuples
against the matching anchors. -/
def decode_box_outputs (exp : ℚ → ℚ) (rel_codes : List (ℚ × ℚ × ℚ × ℚ))
    (anchors : List Box) : List Box :=
  List.zipWith (decodeBox exp) rel_codes anchors

/-- Modelled from the spec: the encode direction of the box coder
(`object_detection/faster_rcnn_box_coder.py` is imported by the source but
is not among the source files).  Spec 4.2: `dy=(yCenterG-yCenterA)/hA`,
`dx=(xCenterG-xCenterA)/wA`, `dh=ln(hG/hA)`, `dw=ln(wG/wA)`; the natural
logarithm is the function parameter `ln`. -/
def encodeBox (ln : ℚ → ℚ) (anchor gt : Box) : ℚ × ℚ × ℚ × ℚ :=
  let ycenter_a := (anchor.ymin + anchor.ymax) / 2
  let xcenter_a := (anchor.xmin + anchor.xmax) / 2
  let ha := anchor.ymax - anchor.ymin
  let wa := anchor.xmax - anchor.xmin
  let ycenter_g := (gt.ymin + gt.ymax) / 2
  let xcenter_g := (gt.xmin + gt.xmax) / 2
  let hg := gt.ymax - gt.ymin
  let wg := gt.xmax - gt.xmin
  ((ycenter_g - ycenter_a) / ha, (xcenter_g - xcenter_a) / wa,
    ln (hg / ha), ln (wg / wa))

/-- C7: encode/decode round trip.  For every anchor `A` with positive width
and height and every box `B` with positive width and height (so that its
encoding is finite), decoding the encoding of `B` against `A` reconstructs
`B` exactly in the rational model (hence within any floating-point
tolerance); the only property of the transcendental pair used is
`exp (ln q) = q` for positive `q`. -/
theorem decode_encode_roundtrip (exp ln : ℚ → ℚ) (A B : Box)
    (hA : 0 < A.ymax - A.ymin) (wA : 0 < A.xmax - A.xmin)
    (hG : 0 < B.ymax - B.ymin) (wG : 0 < B.xmax - B.xmin)
    (hinv : ∀ q, 0 < q → exp (ln q) = q) :
    decodeBox exp (encodeBox ln A B) A = B := by
  obtain ⟨Ay1, Ax1, Ay2, Ax2⟩ := A
  obtain ⟨By1, Bx1, By2, Bx2⟩ := B
  simp only at hA wA hG wG
  have hane : Ay2 - Ay1 ≠ 0 := ne_of_gt hA
  have wane : Ax2 - Ax1 ≠ 0 := ne_of_gt wA
  simp only [decodeBox, encodeBox]
  rw [hinv _ (div_pos hG hA), hinv _ (div_pos wG wA)]
  simp only [Box.mk.injEq]
  refine ⟨?_, ?_, ?_, ?_⟩ <;> field_simp <;> ring

/-- Witness for C7 at a concrete instance: anchor `(0,0,2,2)`, box
`(0,0,1,1)`, with `exp = ln = id` (which satisfies the inverse law). -/
theorem decode_encode_roundtrip_witness :
    (0:ℚ) < (⟨0,0,2,2⟩ : Box).ymax - (⟨0,0,2,2⟩ : Box).ymin ∧
      (∀ q : ℚ, 0 < q → id (id q) = q) ∧
      decodeBox id (encodeBox id ⟨0,0,2,2⟩ ⟨0,0,1,1⟩) ⟨0,0,2,2⟩ = ⟨0,0,1,1⟩ :=
  ⟨by decide, fun q _ => rfl,
    decode_encode_roundtrip id id ⟨0,0,2,2⟩ ⟨0,0,1,1⟩ (by decide) (by decide)
      (by decide) (by decide) (fun q _ => rfl)⟩

/-- C10: for every anchor with strictly positive height and width and every
regression tuple whose `exp(th)`, `exp(tw)` are non-negative (as values of
the real exponential always are), `decodeBox` returns a well-formed box:
`ymin ≤ ymax` and `xmin ≤ xmax`. -/
theorem decodeBox_wellformed (exp : ℚ → ℚ) (rel : ℚ × ℚ × ℚ × ℚ) (anchor : Box)
    (hha : 0 < anchor.ymax - anchor.ymin) (hwa : 0 < anchor.xmax - anchor.xmin)
    (hth : 0 ≤ exp rel.2.2.1) (htw : 0 ≤ exp rel.2.2.2) :
    (decodeBox exp rel anchor).ymin ≤ (decodeBox exp rel anchor).ymax ∧
      (decodeBox exp rel anchor).xmin ≤ (decodeBox exp rel anchor).xmax := by
  obtain ⟨ty, tx, th, tw⟩ := rel
  simp only at hth htw
  simp only [decodeBox]
  constructor
  · nlinarith [mul_nonneg hth hha.le]
  · nlinarith [mul_nonneg htw hwa.le]

/-- Witness for C10 at a concrete instance: anchor `(0,0,2,2)`, regression
tuple `(0,0,1,1)`, `exp = id`. -/
theorem decodeBox_wellformed_witness :
    (0:ℚ) < (⟨0,0,2,2⟩ : Box).ymax - (⟨0,0,2,2⟩ : Box).ymin ∧
      (0:ℚ) ≤ id (1:ℚ) ∧
      ((decodeBox id (0,0,1,1) ⟨0,0,2,2⟩).ymin ≤ (decodeBox id (0,0,1,1) ⟨0,0,2,2⟩).ymax ∧
        (decodeBox id (0,0,1,1) ⟨0,0,2,2⟩).xmin ≤ (decodeBox id (0,0,1,1) ⟨0,0,2,2⟩).xmax) :=
  ⟨by decide, by decide,
    decodeBox_wellformed id (0,0,1,1) ⟨0,0,2,2⟩ (by decide) (by decide)
      (by decide) (by decide)⟩

/-- The length of `np.arange(start, stop, step)` for positive `step`:
`⌈(stop - start) / step⌉` clamped at 0. -/
def arangeLen (start stop step : ℚ) : ℕ := (⌈(stop - start) / step⌉).toNat

/-- Source: `np.arange(start, stop, step)`: `start + k * step` for
`k < arangeLen start stop step`. -/
def arange (start stop step : ℚ) : List ℚ :=
  (List.range (arangeLen start stop step)).map fun k : ℕ => start + (k : ℚ) * step

/-- The configurations of one level of `_generate_anchor_configs`
(lines 132-137): a `(stride, octave_scale, aspect)` triple for every
`scale_octave < num_scales` and every aspect ratio, with
`stride = 2^level`, `octave_scale = scale_octave / num_scales`. -/
def levelConfigs (num_scales : ℕ) (aspect_ratios : List (ℚ × ℚ))
    (level : ℕ) : List (ℕ × ℚ × (ℚ × ℚ)) :=
  (List.range num_scales).flatMap fun scale_octave : ℕ =>
    aspect_ratios.map fun aspect =>
      (2 ^ level, (scale_octave : ℚ) / (num_scales : ℚ), aspect)

/-- Source: `_generate_anchor_configs(min_level, max_level, num_scales,
aspect_ratios)` (lines 113-138): the per-level configuration lists, keyed
by level, for levels `min_level..max_level` in order. -/
def generate_anchor_configs (min_level max_level num_scales : ℕ)
    (aspect_ratios : List (ℚ × ℚ)) : List (ℕ × List (ℕ × ℚ × (ℚ × ℚ))) :=
  (List.range' min_level (max_level + 1 - min_level)).map fun level =>
    (level, levelConfigs num_scales aspect_ratios level)

/-- The boxes one `(stride, octave_scale, aspect)` configuration contributes
(lines 166-180): `np.meshgrid` of `x = arange(stride/2, image_size, stride)`
and `y = arange(stride/2, image_height, stride)` flattened row-major over
`y` then `x`, one box per grid center.  `2**octave_scale` is the function
parameter `pow2` (transcendental for fractional octaves). -/
def configBoxes (pow2 : ℚ → ℚ) (anchor_scale : ℚ)
    (image_size image_height : ℕ) (cfg : ℕ × ℚ × (ℚ × ℚ)) : List Box :=
  let stride := cfg.1
  let octave_scale := cfg.2.1
  let aspect := cfg.2.2
  let base_anchor_size := anchor_scale * (stride : ℚ) * pow2 octave_scale
  let anchor_size_x_2 := base_anchor_size * aspect.1 / 2
  let anchor_size_y_2 := base_anchor_size * aspect.2 / 2
  let x := arange ((stride : ℚ) / 2) (image_size : ℚ) (stride : ℚ)
  let y := arange ((stride : ℚ) / 2) (image_height : ℚ) (stride : ℚ)
  y.flatMap fun yv => x.map fun xv =>
    ⟨yv - anchor_size_y_2, xv - anchor_size_x_2,
      yv + anchor_size_y_2, xv + anchor_size_x_2⟩

/-- One iteration of the config loop of `_generate_anchor_boxes`
(lines 162-180), including the stride-divisibility check of lines 164-165.
The check inspects `image_size` (the width) only; `image_height` is used
solely to lay out the `y` grid. -/
def perConfig (pow2 : ℚ → ℚ) (anchor_scale : ℚ)
    (image_size image_height : ℕ) (cfg : ℕ × ℚ × (ℚ × ℚ)) :
    Except String (List Box) :=
  if image_size % cfg.1 ≠ 0 then
    .error "input size must be divided by the stride."
  else
    .ok (configBoxes pow2 anchor_scale image_size image_height cfg)

/-- Sequential effectful map over `Except`: the Python `for` loop that
appends per-config results and aborts at the first raise. -/
def mapME {ε α β : Type} (f : α → Except ε β) : List α → Except ε (List β)
  | [] => .ok []
  | a :: l =>
    match f a with
    | .error e => .error e
    | .ok b =>
      match mapME f l with
      | .error e => .error e
      | .ok bs => .ok (b :: bs)

/-- Source: `np.concatenate(boxes_level, axis=1)` followed by `reshape([-1, 4])`
(lines 181-183): interleave the per-config box lists per grid cell — entry
`(n, a)` of the `N×A×4` array is element `n` of config list `a`.  All
per-config lists have the same length (the grid size), taken from the
first. -/
def reshapeNA (ls : List (List Box)) : List Box :=
  (List.range (ls.headD []).length).flatMap fun cell =>
    ls.map fun l => l.getD cell box0

/-- Source: `_generate_anchor_boxes(image_size, anchor_scale, anchor_configs,
image_height)` (lines 141-186): per level, run the config loop and reshape;
stack all levels (`np.vstack`, line 185). -/
def generate_anchor_boxes (pow2 : ℚ → ℚ) (image_size : ℕ) (anchor_scale : ℚ)
    (anchor_configs : List (ℕ × List (ℕ × ℚ × (ℚ × ℚ)))) (image_height : ℕ) :
    Except String (List Box) :=
  (mapME (fun lc =>
      (mapME (perConfig pow2 anchor_scale image_size image_height) lc.2).map
        reshapeNA)
    anchor_configs).map List.flatten

/-- Whether an `Except` computation succeeded. -/
def isOkB {ε α : Type} : Except ε α → Bool
  | .ok _ => true
  | .error _ => false

lemma isOkB_map {ε α β : Type} (f : α → β) (e : Except ε α) :
    isOkB (e.map f) = isOkB e := by
  cases e <;> rfl

lemma mapME_isOk {ε α β : Type} (f : α → Except ε β) :
    ∀ l : List α, isOkB (mapME f l) = true ↔ ∀ a ∈ l, isOkB (f a) = true := by
  intro l
  induction l with
  | nil => simp [mapME, isOkB]
  | cons a l ih =>
    simp only [mapME]
    cases hfa : f a with
    | error e => simp [isOkB, hfa]
    | ok b =>
      cases hrest : mapME f l with
      | error e =>
        rw [hrest] at ih
        constructor
        · intro h
          exact absurd h (by simp [isOkB])
        · intro h
          have h2 : isOkB (Except.error e : Except ε (List β)) = true :=
            ih.mpr fun a' ha' => h a' (List.mem_cons_of_mem _ ha')
          simp [isOkB] at h2
      | ok bs =>
        rw [hrest] at ih
        constructor
        · intro _ a' ha'
          rcases List.mem_cons.mp ha' with rfl | ha'
          · simp [isOkB, hfa]
          · exact ih.mp rfl a' ha'
        · intro _
          simp [isOkB]

lemma mapME_eq_ok_map {ε α β : Type} (f : α → Except ε β) (g : α → β) :
    ∀ l : List α, (∀ a ∈ l, f a = .ok (g a)) → mapME f l = .ok (l.map g) := by
  intro l
  induction l with
  | nil => intro _; simp [mapME]
  | cons a l ih =>
    intro h
    have ha := h a (List.mem_cons_self a l)
    have hl := ih fun a' ha' => h a' (List.mem_cons_of_mem _ ha')
    simp [mapME, ha, hl]

lemma sum_map_const {α : Type} (l : List α) (c : ℕ) :
    (l.map fun _ => c).sum = l.length * c := by
  induction l with
  | nil => simp
  | cons a l ih => simp [ih, Nat.succ_mul, Nat.add_comm]

lemma arange_length (start stop step : ℚ) :
    (arange start stop step).length = arangeLen start stop step := by
  unfold arange
  rw [List.length_map, List.length_range]

/-- When `s` divides `W`, the grid `arange(s/2, W, s)` has exactly `W / s`
points. -/
lemma arangeLen_of_dvd (s W : ℕ) (hs : 0 < s) (hdvd : s ∣ W) :
    arangeLen ((s : ℚ) / 2) (W : ℚ) (s : ℚ) = W / s := by
  obtain ⟨m, rfl⟩ := hdvd
  have hs' : (s : ℚ) ≠ 0 := Nat.cast_ne_zero.mpr hs.ne'
  unfold arangeLen
  have h1 : (((s * m : ℕ) : ℚ) - (s : ℚ) / 2) / (s : ℚ) = (m : ℚ) - 1 / 2 := by
    push_cast
    field_simp
    ring
  rw [h1]
  have h2 : ⌈(m : ℚ) - 1 / 2⌉ = (m : ℤ) := by
    rw [Int.ceil_eq_iff]
    constructor
    · push_cast
      linarith
    · push_cast
      linarith
  rw [h2, Int.toNat_natCast, Nat.mul_div_cancel_left m hs]

lemma levelConfigs_length (ns : ℕ) (ars : List (ℚ × ℚ)) (level : ℕ) :
    (levelConfigs ns ars level).length = ns * ars.length := by
  unfold levelConfigs
  rw [List.length_flatMap]
  have h : (List.map (List.length ∘ fun scale_octave : ℕ =>
      ars.map fun aspect =>
        ((2 ^ level : ℕ), (scale_octave : ℚ) / (ns : ℚ), aspect))
      (List.range ns)) = (List.range ns).map fun _ => ars.length :=
    List.map_congr_left fun a _ => by simp
  rw [h, sum_map_const, List.length_range]

lemma levelConfigs_stride {ns : ℕ} {ars : List (ℚ × ℚ)} {level : ℕ}
    {cfg : ℕ × ℚ × (ℚ × ℚ)} (h : cfg ∈ levelConfigs ns ars level) :
    cfg.1 = 2 ^ level := by
  unfold levelConfigs at h
  rw [List.mem_flatMap] at h
  obtain ⟨so, _, h⟩ := h
  rw [List.mem_map] at h
  obtain ⟨aspect, _, rfl⟩ := h
  rfl

lemma levelConfigs_ne_nil {ns : ℕ} {ars : List (ℚ × ℚ)} (level : ℕ)
    (hns : 1 ≤ ns) (hars : ars ≠ []) : levelConfigs ns ars level ≠ [] := by
  intro h
  have := congrArg List.length h
  rw [levelConfigs_length] at this
  simp at this
  rcases this with h | h
  · omega
  · exact hars h

lemma perConfig_isOk (pow2 : ℚ → ℚ) (ascale : ℚ) (W H : ℕ)
    (cfg : ℕ × ℚ × (ℚ × ℚ)) :
    isOkB (perConfig pow2 ascale W H cfg) = true ↔ W % cfg.1 = 0 := by
  unfold perConfig
  split_ifs with h
  · simp [isOkB, h]
  · simp [isOkB, not_not.mp h]

lemma perConfig_eq_ok (pow2 : ℚ → ℚ) (ascale : ℚ) (W H : ℕ)
    (cfg : ℕ × ℚ × (ℚ × ℚ)) (h : W % cfg.1 = 0) :
    perConfig pow2 ascale W H cfg =
      .ok (configBoxes pow2 ascale W H cfg) := by
  unfold perConfig
  simp [h]

lemma mem_range'_iff (minl maxl L : ℕ) :
    L ∈ List.range' minl (maxl + 1 - minl) ↔ minl ≤ L ∧ L ≤ maxl := by
  rw [List.mem_range']
  constructor
  · rintro ⟨i, hi, rfl⟩
    omega
  · intro ⟨h1, h2⟩
    exact ⟨L - minl, by omega, by omega⟩

/-- C1 (amended): with at least one scale and a non-empty aspect-ratio list,
anchor generation fails iff `imageWidth % 2^L ≠ 0` for some level
`L ∈ [minLevel, maxLevel]`; `imageHeight` (a free variable on the left,
absent on the right) is never checked. -/
theorem generate_anchor_boxes_ok_iff (pow2 : ℚ → ℚ) (W : ℕ) (ascale : ℚ)
    (H minl maxl ns : ℕ) (ars : List (ℚ × ℚ))
    (hns : 1 ≤ ns) (hars : ars ≠ []) :
    isOkB (generate_anchor_boxes pow2 W ascale
        (generate_anchor_configs minl maxl ns ars) H) = true ↔
      ∀ L, minl ≤ L → L ≤ maxl → W % 2 ^ L = 0 := by
  unfold generate_anchor_boxes generate_anchor_configs
  rw [isOkB_map, mapME_isOk]
  constructor
  · intro h L h1 h2
    have hmem : (L, levelConfigs ns ars L) ∈
        (List.range' minl (maxl + 1 - minl)).map fun level =>
          (level, levelConfigs ns ars level) :=
      List.mem_map_of_mem _ ((mem_range'_iff minl maxl L).mpr ⟨h1, h2⟩)
    have h3 := h _ hmem
    rw [isOkB_map, mapME_isOk] at h3
    obtain ⟨cfg, hcfg⟩ := List.exists_mem_of_ne_nil _ (levelConfigs_ne_nil L hns hars)
    have h4 := h3 cfg hcfg
    rw [perConfig_isOk] at h4
    rwa [levelConfigs_stride hcfg] at h4
  · intro h lc hlc
    rw [List.mem_map] at hlc
    obtain ⟨L, hL, rfl⟩ := hlc
    rw [mem_range'_iff] at hL
    rw [isOkB_map, mapME_isOk]
    intro cfg hcfg
    rw [perConfig_isOk, levelConfigs_stride hcfg]
    exact h L hL.1 hL.2

/-- Witness for the amended C1 at a concrete instance. -/
theorem generate_anchor_boxes_ok_iff_witness :
    1 ≤ 1 ∧ ([((1:ℚ), (1:ℚ))] ≠ []) ∧
      (isOkB (generate_anchor_boxes id 4 1
          (generate_anchor_configs 1 2 1 [((1:ℚ), (1:ℚ))]) 8) = true ↔
        ∀ L, 1 ≤ L → L ≤ 2 → 4 % 2 ^ L = 0) :=
  ⟨by decide, by decide,
    generate_anchor_boxes_ok_iff id 4 1 8 1 2 1 [((1:ℚ), (1:ℚ))]
      (by decide) (by decide)⟩

/-- C1 counterexample: the claim asserts generation fails whenever
`imageHeight` is not a multiple of some level's stride.  With width 4,
height 3 and a single level of stride 2 (one scale, one aspect ratio),
`3 % 2 ≠ 0`, yet generation succeeds — the height is never checked. -/
theorem generate_anchor_boxes_height_unchecked :
    isOkB (generate_anchor_boxes id 4 1
        (generate_anchor_configs 1 1 1 [((1:ℚ), (1:ℚ))]) 3) = true ∧
      3 % 2 ^ 1 ≠ 0 := by
  refine ⟨by decide, by decide⟩

lemma flatMap_map_length {α β γ : Type} (l : List α) (l2 : List β) (f : α → β → γ) :
    (l.flatMap fun a => l2.map (f a)).length = l.length * l2.length := by
  induction l with
  | nil => simp
  | cons a l ih => simp [ih, Nat.succ_mul, Nat.add_comm]

lemma configBoxes_length (pow2 : ℚ → ℚ) (ascale : ℚ) (W H : ℕ)
    (cfg : ℕ × ℚ × (ℚ × ℚ)) :
    (configBoxes pow2 ascale W H cfg).length =
      arangeLen ((cfg.1 : ℚ) / 2) (H : ℚ) (cfg.1 : ℚ) *
        arangeLen ((cfg.1 : ℚ) / 2) (W : ℚ) (cfg.1 : ℚ) := by
  simp only [configBoxes]
  rw [flatMap_map_length, arange_length, arange_length]

lemma reshapeNA_length_of_const (ls : List (List Box)) (N : ℕ)
    (h : ∀ l ∈ ls, l.length = N) (hne : ls ≠ []) :
    (reshapeNA ls).length = N * ls.length := by
  unfold reshapeNA
  rw [List.length_flatMap]
  have h2 : (List.map (List.length ∘ fun cell => ls.map fun l => l.getD cell box0)
      (List.range (ls.headD []).length)) =
      (List.range (ls.headD []).length).map fun _ => ls.length :=
    List.map_congr_left fun a _ => by simp
  rw [h2, sum_map_const, List.length_range]
  have h3 : (ls.headD []).length = N := by
    cases ls with
    | nil => exact absurd rfl hne
    | cons l ls => exact h l (List.mem_cons_self l ls)
  rw [h3]

/-- C2: anchor count invariant.  For every valid configuration (ordered
levels, at least one scale, non-empty aspect ratios, positive dimensions
divisible by every level's stride), generation succeeds and produces
exactly `Σ_L (H / 2^L) * (W / 2^L) * numScales * numAspectRatios` boxes. -/
theorem anchor_count (pow2 : ℚ → ℚ) (W H : ℕ) (ascale : ℚ)
    (minl maxl ns : ℕ) (ars : List (ℚ × ℚ))
    (_hml : minl ≤ maxl) (hns : 1 ≤ ns) (hars : ars ≠ [])
    (_hW : 0 < W) (_hH : 0 < H)
    (hdW : ∀ L, minl ≤ L → L ≤ maxl → 2 ^ L ∣ W)
    (hdH : ∀ L, minl ≤ L → L ≤ maxl → 2 ^ L ∣ H) :
    ∃ boxes, generate_anchor_boxes pow2 W ascale
        (generate_anchor_configs minl maxl ns ars) H = .ok boxes ∧
      boxes.length = ((List.range' minl (maxl + 1 - minl)).map fun L =>
        H / 2 ^ L * (W / 2 ^ L) * ns * ars.length).sum := by
  unfold generate_anchor_boxes generate_anchor_configs
  have hlevel : ∀ lc ∈ (List.range' minl (maxl + 1 - minl)).map
      (fun level => (level, levelConfigs ns ars level)),
      ((mapME (perConfig pow2 ascale W H) lc.2).map reshapeNA) =
        .ok (reshapeNA (lc.2.map (configBoxes pow2 ascale W H))) := by
    intro lc hlc
    rw [List.mem_map] at hlc
    obtain ⟨L, hL, rfl⟩ := hlc
    rw [mem_range'_iff] at hL
    have hin : mapME (perConfig pow2 ascale W H) (levelConfigs ns ars L) =
        .ok ((levelConfigs ns ars L).map (configBoxes pow2 ascale W H)) := by
      apply mapME_eq_ok_map
      intro cfg hcfg
      apply perConfig_eq_ok
      rw [levelConfigs_stride hcfg]
      exact Nat.mod_eq_zero_of_dvd (hdW L hL.1 hL.2)
    rw [hin]
    rfl
  rw [mapME_eq_ok_map _
    (fun lc => reshapeNA (lc.2.map (configBoxes pow2 ascale W H))) _ hlevel]
  refine ⟨_, rfl, ?_⟩
  rw [List.length_flatten, List.map_map, List.map_map]
  congr 1
  apply List.map_congr_left
  intro L hL
  rw [mem_range'_iff] at hL
  simp only [Function.comp]
  have hNlen : ∀ l ∈ (levelConfigs ns ars L).map (configBoxes pow2 ascale W H),
      l.length = H / 2 ^ L * (W / 2 ^ L) := by
    intro l hl
    rw [List.mem_map] at hl
    obtain ⟨cfg, hcfg, rfl⟩ := hl
    rw [configBoxes_length, levelConfigs_stride hcfg,
      arangeLen_of_dvd _ _ (Nat.pos_pow_of_pos L (by norm_num)) (hdH L hL.1 hL.2),
      arangeLen_of_dvd _ _ (Nat.pos_pow_of_pos L (by norm_num)) (hdW L hL.1 hL.2)]
  rw [reshapeNA_length_of_const _ _ hNlen
    (by
      intro hmapnil
      exact levelConfigs_ne_nil L hns hars (List.map_eq_nil_iff.mp hmapnil)),
    List.length_map, levelConfigs_length]
  ring

/-- Witness for C2 at a concrete instance: levels 1..2, one scale, one
aspect ratio, a 4×4 image; the invariant sum is `2*2 + 1*1 = 5`. -/
theorem anchor_count_witness :
    ∃ boxes, generate_anchor_boxes id 4 1
        (generate_anchor_configs 1 2 1 [((1:ℚ), (1:ℚ))]) 4 = .ok boxes ∧
      boxes.length = ((List.range' 1 2).map fun L =>
        4 / 2 ^ L * (4 / 2 ^ L) * 1 * 1).sum :=
  anchor_count id 4 4 1 1 2 1 [((1:ℚ), (1:ℚ))] (by decide) (by decide)
    (by decide) (by decide) (by decide)
    (fun L h1 h2 => by interval_cases L <;> decide)
    (fun L h1 h2 => by interval_cases L <;> decide)

/-- The first index attaining the maximum of `f` on `0..n-1` (`tf.argmax` /
`np.argmax` return the first maximizer; 0 for an empty range). -/
def argmaxIdx (n : ℕ) (f : ℕ → ℚ) : ℕ :=
  (List.range n).foldl (fun best k => if f best < f k then k else best) 0

/-- Modelled from the spec: the IoU similarity of
`object_detection/region_similarity_calculator.py` (not among the source
files) — intersection over union of two `(ymin, xmin, ymax, xmax)` boxes;
`ℚ` division by zero yields 0. -/
def iouSim (a b : Box) : ℚ :=
  let ih := max 0 (min a.ymax b.ymax - max a.ymin b.ymin)
  let iw := max 0 (min a.xmax b.xmax - max a.xmin b.xmin)
  let interk := ih * iw
  let areaA := (a.ymax - a.ymin) * (a.xmax - a.xmin)
  let areaB := (b.ymax - b.ymin) * (b.xmax - b.xmin)
  interk / (areaA + areaB - interk)

/-- Modelled from the spec (4.3): the `ArgMaxMatcher` of
`object_detection/argmax_matcher.py` (not among the source files) with
`unmatched_threshold = match_threshold`, `negatives_lower_than_unmatched`
and `force_match_for_each_row = True`, exactly as `AnchorLabeler.__init__`
configures it (source lines 360-365).  `A` anchors, `G` ground-truth
columns, `sim i j` the similarity of anchor `i` and ground truth `j`.
Result: per anchor, the matched column, or `-1` for background.  First
pass: each anchor takes its best column when that similarity reaches the
threshold.  Forced pass: every column claims its globally best anchor,
overriding the first pass; when several columns share a best anchor the
later column wins. -/
def matchWithForce (A G : ℕ) (sim : ℕ → ℕ → ℚ) (thr : ℚ) : ℕ → ℤ :=
  let base : ℕ → ℤ := fun i =>
    if 0 < G then
      if thr ≤ sim i (argmaxIdx G (sim i)) then (argmaxIdx G (sim i) : ℤ) else -1
    else -1
  (List.range G).foldl
    (fun m j => fun i => if i = argmaxIdx A (fun k => sim k j) then (j : ℤ) else m i)
    base

/-- The anchor with the globally highest IoU for ground-truth box `j`. -/
def bestAnchor (anchors gt_boxes : List Box) (j : ℕ) : ℕ :=
  argmaxIdx anchors.length
    fun i => iouSim (anchors.getD i box0) (gt_boxes.getD j box0)

/-- Modelled from the spec (4.4): `TargetAssigner.assign`
(`object_detection/target_assigner.py`, not among the source files):
matched anchors receive the matched ground truth's label and its encoded
box; unmatched anchors receive class 0 and a zero box target.  Returns
`(cls_targets, box_targets, match_results)`. -/
def assignTargets (ln : ℚ → ℚ) (anchors gt_boxes : List Box)
    (gt_labels : List ℤ) (thr : ℚ) :
    List ℤ × List (ℚ × ℚ × ℚ × ℚ) × List ℤ :=
  let A := anchors.length
  let G := gt_boxes.length
  let sim := fun i j => iouSim (anchors.getD i box0) (gt_boxes.getD j box0)
  let m := matchWithForce A G sim thr
  ((List.range A).map fun i =>
      if 0 ≤ m i then gt_labels.getD (m i).toNat 0 else 0,
   (List.range A).map fun i =>
      if 0 ≤ m i then
        encodeBox ln (anchors.getD i box0) (gt_boxes.getD (m i).toNat box0)
      else (0, 0, 0, 0),
   (List.range A).map m)

/-- Source: `AnchorLabeler.label_anchors` (lines 398-435) over the flat per-anchor
arrays (`_unpack_labels` only reshapes them per level): class targets are
the assigned ones minus 1 (line 426, making background `-1`), box targets
are passed through, and `num_positives` counts anchors whose match result
is not `-1` (lines 432-433).  The `TargetAssigner.assign` call is modelled
from the spec. -/
def label_anchors (ln : ℚ → ℚ) (anchors : List Box) (match_threshold : ℚ)
    (gt_boxes : List Box) (gt_labels : List ℤ) :
    List ℤ × List (ℚ × ℚ × ℚ × ℚ) × ℕ :=
  let r := assignTargets ln anchors gt_boxes gt_labels match_threshold
  (r.1.map fun c => c - 1, r.2.1, (r.2.2.filter fun v => v != -1).length)

lemma argmaxIdx_lt (n : ℕ) (f : ℕ → ℚ) (hn : 0 < n) : argmaxIdx n f < n := by
  unfold argmaxIdx
  have key : ∀ (l : List ℕ) (acc : ℕ), acc < n → (∀ k ∈ l, k < n) →
      (l.foldl (fun best k => if f best < f k then k else best) acc) < n := by
    intro l
    induction l with
    | nil => intro acc hacc _; exact hacc
    | cons a l ih =>
      intro acc hacc hmem
      simp only [List.foldl_cons]
      split_ifs with h
      · exact ih a (hmem a (List.mem_cons_self a l))
          fun k hk => hmem k (List.mem_cons_of_mem _ hk)
      · exact ih acc hacc fun k hk => hmem k (List.mem_cons_of_mem _ hk)
  exact key (List.range n) 0 hn fun k hk => List.mem_range.mp hk

lemma foldl_update_ne (best : ℕ → ℕ) :
    ∀ (L : List ℕ) (m0 : ℕ → ℤ) (i : ℕ), (∀ j ∈ L, best j ≠ i) →
      (L.foldl (fun m j => fun i' => if i' = best j then (j : ℤ) else m i') m0) i
        = m0 i := by
  intro L
  induction L with
  | nil => intro m0 i _; rfl
  | cons a L ih =>
    intro m0 i h
    simp only [List.foldl_cons]
    rw [ih _ i fun j hj => h j (List.mem_cons_of_mem _ hj)]
    exact if_neg fun heq => h a (List.mem_cons_self a L) heq.symm

lemma foldl_update_eq (best : ℕ → ℕ) :
    ∀ (L : List ℕ) (m0 : ℕ → ℤ) (j0 : ℕ), L.Nodup → j0 ∈ L →
      (∀ j ∈ L, best j = best j0 → j = j0) →
      (L.foldl (fun m j => fun i' => if i' = best j then (j : ℤ) else m i') m0)
        (best j0) = j0 := by
  intro L
  induction L with
  | nil => intro m0 j0 _ h _; exact absurd h (List.not_mem_nil j0)
  | cons a L ih =>
    intro m0 j0 hnd hmem huniq
    obtain ⟨hna, hndL⟩ := List.nodup_cons.mp hnd
    rcases List.mem_cons.mp hmem with rfl | hmem'
    · simp only [List.foldl_cons]
      have hne : ∀ j ∈ L, best j ≠ best j0 := by
        intro j hj heq
        have hj0 := huniq j (List.mem_cons_of_mem _ hj) heq
        exact hna (hj0 ▸ hj)
      rw [foldl_update_ne best L _ (best j0) hne]
      simp
    · have hane : a ≠ j0 := fun h => hna (h ▸ hmem')
      simp only [List.foldl_cons]
      rw [ih _ j0 hndL hmem'
        fun j hj heq => huniq j (List.mem_cons_of_mem _ hj) heq]

lemma matchWithForce_empty_gt (A : ℕ) (sim : ℕ → ℕ → ℚ) (thr : ℚ) (i : ℕ) :
    matchWithForce A 0 sim thr i = -1 := by
  unfold matchWithForce
  simp

/-- C8 counterexample: with one anchor and two IDENTICAL ground-truth boxes
(`G = 2 ≥ 1`), both columns share the same best anchor, the later forced
assignment overrides the earlier one, and ground-truth index 0 ends up the
matched target of NO anchor: the single anchor's match result is 1. -/
theorem forced_match_counterexample :
    (assignTargets id [⟨0, 0, 1, 1⟩] [⟨0, 0, 1, 1⟩, ⟨0, 0, 1, 1⟩]
        [1, 2] (1/2)).2.2 = [1] ∧ (1 : ℤ) ≠ 0 := by
  refine ⟨by decide, by decide⟩

/-- C8 (amended): the forced-match guarantee holds whenever no two
ground-truth columns share the same globally-best anchor (and there is at
least one anchor): every ground-truth index then appears as the matched
target of at least one anchor in the match results computed inside
`label_anchors`. -/
theorem forced_match_of_distinct_best (ln : ℚ → ℚ) (anchors gt_boxes : List Box)
    (gt_labels : List ℤ) (thr : ℚ) (j : ℕ)
    (hA : 0 < anchors.length) (hj : j < gt_boxes.length)
    (hdist : ∀ j1, j1 < gt_boxes.length → ∀ j2, j2 < gt_boxes.length →
      bestAnchor anchors gt_boxes j1 = bestAnchor anchors gt_boxes j2 → j1 = j2) :
    ∃ i, i < anchors.length ∧
      (assignTargets ln anchors gt_boxes gt_labels thr).2.2.getD i 0 = (j : ℤ) := by
  refine ⟨bestAnchor anchors gt_boxes j, argmaxIdx_lt _ _ hA, ?_⟩
  unfold assignTargets
  have hlt : bestAnchor anchors gt_boxes j < anchors.length := argmaxIdx_lt _ _ hA
  rw [List.getD_eq_getElem _ _ (by simpa using hlt), List.getElem_map]
  have hmain : matchWithForce anchors.length gt_boxes.length
      (fun i k => iouSim (anchors.getD i box0) (gt_boxes.getD k box0)) thr
      (bestAnchor anchors gt_boxes j) = (j : ℤ) := by
    unfold matchWithForce
    exact foldl_update_eq (bestAnchor anchors gt_boxes) (List.range gt_boxes.length)
      _ j (List.nodup_range _) (List.mem_range.mpr hj)
      (fun j1 hj1 heq => hdist j1 (List.mem_range.mp hj1) j hj heq)
  simp only [List.getElem_range]
  exact hmain

/-- Witness for the amended C8: two disjoint anchors, the same two boxes as
ground truth — each column's best anchor is its own, so both ground-truth
indices are matched. -/
theorem forced_match_of_distinct_best_witness :
    0 < ([⟨0, 0, 1, 1⟩, ⟨5, 5, 6, 6⟩] : List Box).length ∧
      (∃ i, i < ([⟨0, 0, 1, 1⟩, ⟨5, 5, 6, 6⟩] : List Box).length ∧
        (assignTargets id [⟨0, 0, 1, 1⟩, ⟨5, 5, 6, 6⟩]
            [⟨0, 0, 1, 1⟩, ⟨5, 5, 6, 6⟩] [1, 2] (1/2)).2.2.getD i 0 = (0 : ℤ)) :=
  ⟨by decide,
    forced_match_of_distinct_best id [⟨0, 0, 1, 1⟩, ⟨5, 5, 6, 6⟩]
      [⟨0, 0, 1, 1⟩, ⟨5, 5, 6, 6⟩] [1, 2] (1/2) 0 (by decide) (by decide)
      (by decide)⟩

/-- C9: labeling with an empty ground-truth list is total and returns
background everywhere: every class target is `-1`, every box target is the
zero tuple, and `numPositives = 0`. -/
theorem label_anchors_empty_gt (ln : ℚ → ℚ) (anchors : List Box) (thr : ℚ) :
    ((label_anchors ln anchors thr [] []).1.all fun c => c == -1) = true ∧
      ((label_anchors ln anchors thr [] []).2.1.all
        fun b => b == ((0:ℚ), (0:ℚ), (0:ℚ), (0:ℚ))) = true ∧
      (label_anchors ln anchors thr [] []).2.2 = 0 := by
  unfold label_anchors assignTargets
  refine ⟨?_, ?_, ?_⟩
  · rw [List.all_eq_true]
    intro c hc
    simp only [List.mem_map] at hc
    obtain ⟨i, ⟨k, _, rfl⟩, rfl⟩ := hc
    simp [matchWithForce_empty_gt]
  · rw [List.all_eq_true]
    intro b hb
    simp only [List.mem_map] at hb
    obtain ⟨i, _, rfl⟩ := hb
    simp [matchWithForce_empty_gt]
  · rw [List.length_eq_zero, List.filter_eq_nil_iff]
    intro v hv
    simp only [List.mem_map] at hv
    obtain ⟨i, _, rfl⟩ := hv
    simp [matchWithForce_empty_gt]

/-- Source: `sigmoid(x) = 1 / (1 + np.exp(-x))` (lines 47-49); `np.exp` is the
function parameter `exp`. -/
def sigmoid (exp : ℚ → ℚ) (x : ℚ) : ℚ := 1 / (1 + exp (-x))

/-- Source: `MAX_DETECTIONS_PER_IMAGE` (line 44). -/
def MAX_DETECTIONS_PER_IMAGE : ℕ := 100

/-- The inputs of `_generate_detections` (lines 189-218), one image. -/
structure DetIn where
  cls_outputs : List ℚ
  box_outputs : List (ℚ × ℚ × ℚ × ℚ)
  anchor_boxes : List Box
  indices : List ℕ
  classes : List ℕ
  image_id : ℚ
  image_scale : ℚ
  num_classes : ℕ
  level_index : List ℚ

/-- Source: `anchor_boxes = anchor_boxes[indices, :]` (line 219). -/
def selAnchors (inp : DetIn) : List Box :=
  inp.indices.map fun j => inp.anchor_boxes.getD j box0

/-- Source: `scores = sigmoid(cls_outputs)` (line 222). -/
def detScores (exp : ℚ → ℚ) (inp : DetIn) : List ℚ :=
  inp.cls_outputs.map (sigmoid exp)

/-- Source: `boxes = decode_box_outputs(box_outputs.swapaxes(0, 1),
anchor_boxes.swapaxes(0, 1))` (lines 224-225): rowwise decode. -/
def decodedBoxes (exp : ℚ → ℚ) (inp : DetIn) : List Box :=
  decode_box_outputs exp inp.box_outputs (selAnchors inp)

/-- Candidate `j` as an NMS row: the decoded box reordered to
`(x1, y1, x2, y2)` (line 227, `boxes[:, [1, 0, 3, 2]]`), with its score
(line 247, `np.column_stack((boxes_cls, scores_cls))`). -/
def detOf (exp : ℚ → ℚ) (inp : DetIn) (j : ℕ) : Det :=
  ⟨((decodedBoxes exp inp).getD j box0).xmin,
   ((decodedBoxes exp inp).getD j box0).ymin,
   ((decodedBoxes exp inp).getD j box0).xmax,
   ((decodedBoxes exp inp).getD j box0).ymax,
   (detScores exp inp).getD j 0⟩

/-- Source: `indices = np.where(classes == c)[0]` (line 237). -/
def classIdx (inp : DetIn) (c : ℕ) : List ℕ :=
  (List.range inp.classes.length).filter fun j => inp.classes.getD j 0 == c

/-- A row of the per-class `top_detections_cls` matrix after the
`np.column_stack` of lines 259-264 — eight columns in this exact order:
`(imageId, x1, y1, x2, y2, score, classId, levelIndex)`. -/
structure DRow where
  imageId : ℚ
  x1 : ℚ
  y1 : ℚ
  x2 : ℚ
  y2 : ℚ
  score : ℚ
  cls : ℚ
  level : ℚ
deriving DecidableEq

def row0 : DRow := ⟨0, 0, 0, 0, 0, 0, 0, 0⟩

/-- The row the column_stack of lines 259-264 builds for the candidate with
original index `j` of class `c`: its NMS row (box in `(x1, y1, x2, y2)`
order plus score), `image_id`, class id `c + 1`, and its level index. -/
def candRow (exp : ℚ → ℚ) (inp : DetIn) (c j : ℕ) : DRow :=
  ⟨inp.image_id, (detOf exp inp j).x1, (detOf exp inp j).y1,
   (detOf exp inp j).x2, (detOf exp inp j).y2, (detOf exp inp j).score,
   (c : ℚ) + 1, inp.level_index.getD j 0⟩

/-- One iteration of the class loop (lines 230-266): skip when no candidate
has this class (`continue` at line 239); otherwise run `nms` at threshold
0.5 on the class's rows and emit the kept rows.  Kept position `k` of the
class-restricted arrays is original candidate `classIdx[k]`, so the row
built from `all_detections_cls[k]` and `level_index_cls[k]` is
`candRow c (classIdx[k])`. -/
def classRows (exp : ℚ → ℚ) (inp : DetIn) (c : ℕ) : List DRow :=
  let idxs := classIdx inp c
  if idxs.isEmpty then []
  else
    let dets := idxs.map (detOf exp inp)
    let keep := nms dets (1/2)
    keep.map fun k => candRow exp inp c (idxs.getD k 0)

/-- The concatenated per-class survivors: the `detections` list of the
source after the loop, flattened as `np.vstack` (line 277) lays it out. -/
def allRows (exp : ℚ → ℚ) (inp : DetIn) : List DRow :=
  (List.range inp.num_classes).flatMap (classRows exp inp)

/-- Source: `indices = np.argsort(-detections[:, -3])` and
`detections[indices[0:MAX_DETECTIONS_PER_IMAGE]]` (lines 280-282): stable
ascending argsort of the negated score column (column 5 of 8, i.e. `-3`),
then truncation to the first 100 rows. -/
def finalRows (exp : ℚ → ℚ) (inp : DetIn) : List DRow :=
  ((List.insertionSort
      (argsortLe fun k => -((allRows exp inp).getD k row0).score)
      (List.range (allRows exp inp).length)).map
    fun k => (allRows exp inp).getD k row0).take MAX_DETECTIONS_PER_IMAGE

/-- Source: `detections[:, 1:5] *= image_scale` (line 288) applied to one row. -/
def scaleRow (image_scale : ℚ) (r : DRow) : DRow :=
  { r with x1 := r.x1 * image_scale, y1 := r.y1 * image_scale,
           x2 := r.x2 * image_scale, y2 := r.y2 * image_scale }

/-- The final detection matrix at return time (truncated, then scaled). -/
def scaledRows (exp : ℚ → ℚ) (inp : DetIn) : List DRow :=
  (finalRows exp inp).map (scaleRow inp.image_scale)

/-- The return value of `_generate_detections` (lines 276-295): columns
1:5 (the boxes, in `(x1, y1, x2, y2)` order), column 5 (scores), column 6
(class ids) and column 7 (level indices) of the final matrix; four empty
lists when no class produced survivors (line 295). -/
structure DetOut where
  boxes : List (ℚ × ℚ × ℚ × ℚ)
  scores : List ℚ
  classIds : List ℚ
  levels : List ℚ
deriving DecidableEq

def generate_detections (exp : ℚ → ℚ) (inp : DetIn) : DetOut :=
  if (allRows exp inp).isEmpty then ⟨[], [], [], []⟩
  else
    ⟨(scaledRows exp inp).map fun r => (r.x1, r.y1, r.x2, r.y2),
     (scaledRows exp inp).map fun r => r.score,
     (scaledRows exp inp).map fun r => r.cls,
     (scaledRows exp inp).map fun r => r.level⟩

lemma finalRows_budget (exp : ℚ → ℚ) (inp : DetIn) :
    (finalRows exp inp).length ≤ MAX_DETECTIONS_PER_IMAGE := by
  unfold finalRows
  rw [List.length_take]
  exact min_le_left _ _

lemma finalRows_sorted (exp : ℚ → ℚ) (inp : DetIn) :
    List.Pairwise (fun a b : DRow => b.score ≤ a.score) (finalRows exp inp) := by
  unfold finalRows
  apply List.Pairwise.sublist (List.take_sublist _ _)
  rw [List.pairwise_map]
  have hs := List.sorted_insertionSort
    (argsortLe fun k => -((allRows exp inp).getD k row0).score)
    (List.range (allRows exp inp).length)
  refine hs.imp ?_
  intro i j hij
  rcases hij with h | ⟨h, _⟩
  · replace h : -((allRows exp inp).getD i row0).score <
        -((allRows exp inp).getD j row0).score := h
    linarith
  · replace h : -((allRows exp inp).getD i row0).score =
        -((allRows exp inp).getD j row0).score := h
    linarith

/-- C3: the detection budget.  For every input and every `exp`, the
post-processor returns at most `MAX_DETECTIONS_PER_IMAGE = 100` rows, and
the scores are in non-increasing order. -/
theorem detection_budget_sorted (exp : ℚ → ℚ) (inp : DetIn) :
    (generate_detections exp inp).boxes.length ≤ MAX_DETECTIONS_PER_IMAGE ∧
      (generate_detections exp inp).scores.length ≤ MAX_DETECTIONS_PER_IMAGE ∧
      List.Pairwise (fun a b : ℚ => b ≤ a) (generate_detections exp inp).scores := by
  unfold generate_detections
  split_ifs with h
  · refine ⟨?_, ?_, ?_⟩ <;> simp [MAX_DETECTIONS_PER_IMAGE]
  · refine ⟨?_, ?_, ?_⟩
    · show ((scaledRows exp inp).map fun r => (r.x1, r.y1, r.x2, r.y2)).length ≤ _
      rw [List.length_map]
      unfold scaledRows
      rw [List.length_map]
      exact finalRows_budget exp inp
    · show ((scaledRows exp inp).map fun r => r.score).length ≤ _
      rw [List.length_map]
      unfold scaledRows
      rw [List.length_map]
      exact finalRows_budget exp inp
    · show List.Pairwise _ ((scaledRows exp inp).map fun r => r.score)
      rw [List.pairwise_map]
      unfold scaledRows
      rw [List.pairwise_map]
      refine (finalRows_sorted exp inp).imp ?_
      intro a b hab
      exact hab

lemma getD_map_lt {α β : Type} (f : α → β) (l : List α) (k : ℕ) (d : β) (d' : α)
    (h : k < l.length) : (l.map f).getD k d = f (l.getD k d') := by
  rw [List.getD_eq_getElem _ _ (by simpa using h), List.getD_eq_getElem _ _ h,
    List.getElem_map]

lemma nms_mem_lt (dets : List Det) (t : ℚ) {k : ℕ} (h : k ∈ nms dets t) :
    k < dets.length := by
  unfold nms at h
  have h2 := nmsLoop_subset dets t _ _ h
  exact List.mem_range.mp ((nmsOrder_perm dets).mem_iff.mp h2)

lemma classIdx_mem {inp : DetIn} {c j : ℕ} (h : j ∈ classIdx inp c) :
    j < inp.classes.length ∧ inp.classes.getD j 0 = c := by
  unfold classIdx at h
  rw [List.mem_filter, List.mem_range] at h
  refine ⟨h.1, ?_⟩
  have h2 := h.2
  simpa using h2

lemma classRows_mem (exp : ℚ → ℚ) (inp : DetIn) (c : ℕ) {r : DRow}
    (h : r ∈ classRows exp inp c) :
    ∃ j, j < inp.classes.length ∧ inp.classes.getD j 0 = c ∧
      r = candRow exp inp c j := by
  simp only [classRows] at h
  split_ifs at h with hempty
  · exact absurd h (List.not_mem_nil r)
  · rw [List.mem_map] at h
    obtain ⟨k, hk, rfl⟩ := h
    have hklt : k < (classIdx inp c).length := by
      have h2 := nms_mem_lt _ _ hk
      rwa [List.length_map] at h2
    have hjmem : (classIdx inp c).getD k 0 ∈ classIdx inp c := by
      rw [List.getD_eq_getElem _ _ hklt]
      exact List.getElem_mem _
    exact ⟨(classIdx inp c).getD k 0, (classIdx_mem hjmem).1,
      (classIdx_mem hjmem).2, rfl⟩

lemma allRows_mem (exp : ℚ → ℚ) (inp : DetIn) {r : DRow}
    (h : r ∈ allRows exp inp) :
    ∃ c j, c < inp.num_classes ∧ j < inp.classes.length ∧
      inp.classes.getD j 0 = c ∧ r = candRow exp inp c j := by
  unfold allRows at h
  rw [List.mem_flatMap] at h
  obtain ⟨c, hc, hr⟩ := h
  obtain ⟨j, hj1, hj2, hj3⟩ := classRows_mem exp inp c hr
  exact ⟨c, j, List.mem_range.mp hc, hj1, hj2, hj3⟩

lemma finalRows_mem (exp : ℚ → ℚ) (inp : DetIn) {r : DRow}
    (h : r ∈ finalRows exp inp) : r ∈ allRows exp inp := by
  unfold finalRows at h
  obtain ⟨k, hk, rfl⟩ := List.mem_map.mp ((List.take_sublist _ _).subset h)
  have hklt : k < (allRows exp inp).length :=
    List.mem_range.mp ((List.perm_insertionSort _ _).mem_iff.mp hk)
  rw [List.getD_eq_getElem _ _ hklt]
  exact List.getElem_mem _

/-- C4 (amended): every returned detection row carries its four box
coordinates in `(xMin, yMin, xMax, yMax)` order — not the claimed
`(yMin, xMin, yMax, xMax)` — scaled by `imageScale`, alongside its score,
its 1-based class id `c + 1` and its level index; the internal row (before
the final column split) also carries `imageId`.  Row `k` of the output is
the scaled row of some candidate `j` whose predicted class is `c`, with
`c < numClasses`. -/
theorem detection_row_provenance (exp : ℚ → ℚ) (inp : DetIn) (k : ℕ)
    (hk : k < (scaledRows exp inp).length) :
    (generate_detections exp inp).boxes.getD k (0, 0, 0, 0) =
        (((scaledRows exp inp).getD k row0).x1,
         ((scaledRows exp inp).getD k row0).y1,
         ((scaledRows exp inp).getD k row0).x2,
         ((scaledRows exp inp).getD k row0).y2) ∧
      (generate_detections exp inp).scores.getD k 0 =
        ((scaledRows exp inp).getD k row0).score ∧
      (generate_detections exp inp).classIds.getD k 0 =
        ((scaledRows exp inp).getD k row0).cls ∧
      (generate_detections exp inp).levels.getD k 0 =
        ((scaledRows exp inp).getD k row0).level ∧
      ∃ c j, c < inp.num_classes ∧ j < inp.classes.length ∧
        inp.classes.getD j 0 = c ∧
        (scaledRows exp inp).getD k row0 =
          scaleRow inp.image_scale (candRow exp inp c j) := by
  have hne : ¬(allRows exp inp).isEmpty = true := by
    intro hemp
    rw [List.isEmpty_iff] at hemp
    have hz : (scaledRows exp inp).length = 0 := by
      unfold scaledRows finalRows
      rw [hemp]
      simp
    omega
  have hr : (scaledRows exp inp).getD k row0 ∈ scaledRows exp inp := by
    rw [List.getD_eq_getElem _ _ hk]
    exact List.getElem_mem _
  unfold generate_detections
  rw [if_neg hne]
  refine ⟨?_, ?_, ?_, ?_, ?_⟩
  · exact getD_map_lt _ _ k _ row0 hk
  · exact getD_map_lt _ _ k _ row0 hk
  · exact getD_map_lt _ _ k _ row0 hk
  · exact getD_map_lt _ _ k _ row0 hk
  · have hr2 := hr
    unfold scaledRows at hr2
    obtain ⟨r', hr', heq⟩ := List.mem_map.mp hr2
    obtain ⟨c, j, hc, hj, hcls, hrc⟩ := allRows_mem exp inp (finalRows_mem exp inp hr')
    have heq' : (scaledRows exp inp).getD k row0 = scaleRow inp.image_scale r' := by
      unfold scaledRows
      exact heq.symm
    exact ⟨c, j, hc, hj, hcls, by rw [heq', hrc]⟩

/-- The concrete post-processor input of the C4 refutation: one candidate,
logit 0, regression tuple `(0, 0, 1, 1)` (the identity when `exp = id`),
a single anchor `(ymin, xmin, ymax, xmax) = (0, 1, 2, 5)`, class 0 of 1,
`image_id = 9`, `image_scale = 1`, level 7. -/
def inp0 : DetIn :=
  ⟨[0], [(0, 0, 1, 1)], [⟨0, 1, 2, 5⟩], [0], [0], 9, 1, 1, [7]⟩

/-- C4 counterexample: the decoded box is `(ymin, xmin, ymax, xmax) =
(0, 1, 2, 5)`, but the returned detection row's box is `(1, 0, 5, 2)` —
`(xMin, yMin, xMax, yMax)` order — not the `(0, 1, 2, 5)` the claimed
`(yMin, xMin, yMax, xMax)` order would give (`image_scale = 1`). -/
theorem detection_row_order_counterexample :
    decodeBox id ((0:ℚ), (0:ℚ), (1:ℚ), (1:ℚ)) ⟨0, 1, 2, 5⟩ = ⟨0, 1, 2, 5⟩ ∧
      (generate_detections id inp0).boxes = [(1, 0, 5, 2)] ∧
      ((1:ℚ), (0:ℚ), (5:ℚ), (2:ℚ)) ≠ ((0:ℚ), (1:ℚ), (2:ℚ), (5:ℚ)) := by
  refine ⟨by decide, by decide, by decide⟩

/-- Witness for the amended C4 at the concrete input `inp0`, row 0. -/
theorem detection_row_provenance_witness :
    0 < (scaledRows id inp0).length ∧
      ((generate_detections id inp0).boxes.getD 0 (0, 0, 0, 0) =
          (((scaledRows id inp0).getD 0 row0).x1,
           ((scaledRows id inp0).getD 0 row0).y1,
           ((scaledRows id inp0).getD 0 row0).x2,
           ((scaledRows id inp0).getD 0 row0).y2) ∧
        (generate_detections id inp0).scores.getD 0 0 =
          ((scaledRows id inp0).getD 0 row0).score ∧
        (generate_detections id inp0).classIds.getD 0 0 =
          ((scaledRows id inp0).getD 0 row0).cls ∧
        (generate_detections id inp0).levels.getD 0 0 =
          ((scaledRows id inp0).getD 0 row0).level ∧
        ∃ c j, c < inp0.num_classes ∧ j < inp0.classes.length ∧
          inp0.classes.getD j 0 = c ∧
          (scaledRows id inp0).getD 0 row0 =
            scaleRow inp0.image_scale (candRow id inp0 c j)) :=
  ⟨by decide, detection_row_provenance id inp0 0 (by decide)⟩
